import Mathlib

/-!
Verification of the `objectutil` library (src/objectutil.js, src/unnamed/part_002).

The JavaScript values handled by the library are embedded as the inductive
type `Val` below.  A JavaScript array is represented by its own integer-indexed
slots (`Elems`, a list of index/value pairs kept in ascending index order, the
order `Object.keys` enumerates them; a sparse array simply omits the missing
indices) together with its extra non-index string-keyed own attributes
(`Fields`).  A plain object is a `Fields` list (own enumerable string keys in
insertion order).  Functions are represented by an opaque identifier and dates
by their instant.  `vundefined` is the absence value `undefined`.

Reference aliasing is not observable in this first model; a second,
address-carrying model (`AVal`, further below) is used for the no-aliasing
claims.
-/

deriving instance DecidableEq for Except

mutual
inductive Val where
  | vundefined
  | vnull
  | vbool (b : Bool)
  | vnum (n : Int)
  | vstr (s : String)
  | vfun (id : Nat)
  | vdate (t : Int)
  | varr (elems : Elems) (props : Fields)
  | vobj (fields : Fields)
deriving DecidableEq

inductive Elems where
  | nil
  | cons (idx : Nat) (v : Val) (rest : Elems)
deriving DecidableEq

inductive Fields where
  | nil
  | cons (key : String) (v : Val) (rest : Fields)
deriving DecidableEq
end

/-- First value bound to a key in a field list.  JavaScript objects cannot
carry a key twice, so field lists coming from objects have unique keys and
first-match lookup is exact own-property lookup. -/
def Fields.lookup : Fields → String → Option Val
  | .nil, _ => none
  | .cons k v rest, key => if k = key then some v else rest.lookup key

def Fields.append : Fields → Fields → Fields
  | .nil, g => g
  | .cons k v rest, g => .cons k v (rest.append g)

def Fields.vals : Fields → List Val
  | .nil => []
  | .cons _ v rest => v :: rest.vals

def Elems.lookupIdx : Elems → Nat → Option Val
  | .nil, _ => none
  | .cons i v rest, n => if i = n then some v else rest.lookupIdx n

def Elems.append : Elems → Elems → Elems
  | .nil, e => e
  | .cons i v rest, e => .cons i v (rest.append e)

def Elems.vals : Elems → List Val
  | .nil => []
  | .cons _ v rest => v :: rest.vals

/-- JavaScript `array.length`: one past the largest own index. -/
def Elems.jsLen : Elems → Nat
  | .nil => 0
  | .cons i _ rest => max (i + 1) rest.jsLen

/-- `array.push(v)`: appends `v` at index `length`. -/
def Elems.push (e : Elems) (v : Val) : Elems :=
  e.append (.cons e.jsLen v .nil)

/-- Builds the slots of an array whose elements were appended one by one with
`push`, starting at index `n`: consecutive indices, no holes.  This is what
the `output.push(...)` loop of `_cloneArray` produces (with `n = 0`). -/
def densify : List Val → Nat → Elems
  | [], _ => .nil
  | v :: rest, n => .cons n v (densify rest (n + 1))

/-- `typeof v === 'object' && v !== null` (arrays, dates and plain objects). -/
def isObjectType : Val → Bool
  | .varr _ _ => true
  | .vobj _ => true
  | .vdate _ => true
  | _ => false

def isArrB : Val → Bool
  | .varr _ _ => true
  | _ => false

def isRec : Val → Bool
  | .vobj _ => true
  | _ => false

/-- The primitive values, on which JavaScript `===` is value comparison. -/
def isPrimB : Val → Bool
  | .vundefined => true
  | .vnull => true
  | .vbool _ => true
  | .vnum _ => true
  | .vstr _ => true
  | _ => false

/-- Code points JavaScript trims as whitespace before string-to-number
coercion (tab, line terminators, space, no-break space, zero-width no-break
space). -/
def jsWhite (c : Char) : Bool :=
  c.toNat == 9 || c.toNat == 10 || c.toNat == 11 || c.toNat == 12 ||
  c.toNat == 13 || c.toNat == 32 || c.toNat == 160 ||
  c.toNat == 8232 || c.toNat == 8233 || c.toNat == 65279

def jsTrimChars (cs : List Char) : List Char :=
  ((cs.dropWhile jsWhite).reverse.dropWhile jsWhite).reverse

def isDecDigit (c : Char) : Bool := 48 ≤ c.toNat && c.toNat ≤ 57

def isHexDig (c : Char) : Bool :=
  isDecDigit c || (97 ≤ c.toNat && c.toNat ≤ 102) || (65 ≤ c.toNat && c.toNat ≤ 70)

def isOctDig (c : Char) : Bool := 48 ≤ c.toNat && c.toNat ≤ 55

def isBinDig (c : Char) : Bool := c.toNat == 48 || c.toNat == 49

/-- The exponent suffix of a decimal numeric string: nothing, or `e`/`E`
with an optional sign and at least one digit. -/
def expTail : List Char → Bool
  | [] => true
  | c :: rest =>
      (c == 'e' || c == 'E') &&
        (match rest with
         | [] => false
         | s :: rr =>
             let body := if s == '+' || s == '-' then rr else s :: rr
             !body.isEmpty && body.all isDecDigit)

/-- An unsigned decimal numeric string: digits, or digits with one decimal
point carrying digits on at least one side, each with an optional exponent
suffix. -/
def decBody (cs : List Char) : Bool :=
  let d1 := cs.takeWhile isDecDigit
  match cs.drop d1.length with
  | [] => !d1.isEmpty
  | c :: rest =>
      if c == '.' then
        let d2 := rest.takeWhile isDecDigit
        (!d1.isEmpty || !d2.isEmpty) && expTail (rest.drop d2.length)
      else !d1.isEmpty && expTail (c :: rest)

/-- A radix-prefixed integer string: `0x`/`0X`, `0b`/`0B` or `0o`/`0O`
followed by at least one digit of that base (no sign allowed). -/
def radixBody : List Char → Bool
  | z :: x :: rest =>
      z == '0' &&
        (((x == 'x' || x == 'X') && !rest.isEmpty && rest.all isHexDig) ||
         ((x == 'b' || x == 'B') && !rest.isEmpty && rest.all isBinDig) ||
         ((x == 'o' || x == 'O') && !rest.isEmpty && rest.all isOctDig))
  | _ => false

/-- JavaScript `!isNaN(key)` for a string key: the string-to-number coercion
does not yield `NaN`.  After trimming whitespace this holds of the empty
string (it coerces to 0), of a radix-prefixed integer, and of an optionally
signed decimal literal or `Infinity`.  `_cloneArray` sends an array
attribute through its `push` branch exactly when its NAME satisfies this. -/
def jsNumericStr (s : String) : Bool :=
  let t := jsTrimChars s.toList
  t.isEmpty || radixBody t ||
    (let body := match t with
       | c :: rest => if c == '+' || c == '-' then rest else t
       | [] => t
     decBody body || body == "Infinity".toList)

/-- All attribute names are non-numeric to `isNaN`: exactly the attributes
that `_cloneArray` copies in place instead of pushing into the slots. -/
def namesOk : Fields → Bool
  | .nil => true
  | .cons k _ rest => !jsNumericStr k && namesOk rest

/-- JavaScript truthiness.  `NaN` is not representable (numbers are embedded
as integers), so a number is falsy exactly when it is `0`. -/
def jsTruthy : Val → Bool
  | .vundefined => false
  | .vnull => false
  | .vbool b => b
  | .vnum n => n != 0
  | .vstr s => s != ""
  | _ => true

/-- JavaScript strict equality `===` as used inside `_updateIn`, where the
left operand comes from the caller's `updatedObject` and the right operand
from a freshly cloned array.  Primitives compare by value.  Objects, arrays
and dates compare by reference; a value reachable from the original candidate
is never the same reference as a value reachable from an independent clone,
and cloned functions are rebound (`input.bind(this)`) and hence fresh objects,
so every non-primitive comparison in this call pattern is `false`. -/
def jsStrictEq : Val → Val → Bool
  | .vundefined, .vundefined => true
  | .vnull, .vnull => true
  | .vbool a, .vbool b => a == b
  | .vnum a, .vnum b => a == b
  | .vstr a, .vstr b => a == b
  | _, _ => false

/-- Own-property read `target[key]` on a non-null, non-undefined target,
yielding `undefined` when the key is absent.  On an array, a canonical
numeric key addresses the indexed slots and any other key the extra
attributes.  Built-in non-enumerable properties (such as `length` or the
indexed characters of a boxed string) are outside the model: no claim
touches them. -/
def getProp : Val → String → Val
  | .vobj fields, k => (fields.lookup k).getD .vundefined
  | .varr elems props, k =>
      match k.toNat? with
      | some n => if toString n = k then (elems.lookupIdx n).getD .vundefined
                  else (props.lookup k).getD .vundefined
      | none => (props.lookup k).getD .vundefined
  | _, _ => .vundefined

/-- Property read `v[key]` in an expression position: reading a property of
`null` or `undefined` throws a TypeError, modelled by `.error ()`. -/
def getPropE : Val → String → Except Unit Val
  | .vnull, _ => .error ()
  | .vundefined, _ => .error ()
  | v, k => .ok (getProp v k)

mutual
/-- `clone` (src/objectutil.js:50-64).  Arrays go through the `_cloneArray`
loop over `Object.keys`: the indexed slots come first (ascending, holes
skipped) and are re-appended with `push`; each remaining attribute is then
tested with `isNaN` on its NAME — a numeric-like name (`"01"`, `"1e3"`,
`" "`, `"-1"`) also takes the `push` branch, the value appended as the next
slot and the name lost, while only attributes with non-numeric names are
assigned in place.  `cloneProps` returns the pushed values and the kept
attributes of that pass.  Dates are rebuilt from the same instant, plain
objects key by key; primitives are returned as-is and functions are rebound,
which keeps their behaviour (`id`). -/
def clone : Val → Val
  | .vundefined => .vundefined
  | .vnull => .vnull
  | .vbool b => .vbool b
  | .vnum n => .vnum n
  | .vstr s => .vstr s
  | .vfun id => .vfun id
  | .vdate t => .vdate t
  | .varr elems props =>
      .varr (densify (cloneElems elems ++ (cloneProps props).1) 0) (cloneProps props).2
  | .vobj fields => .vobj (cloneFields fields)

/-- The `output.push(clone(array[key]))` half of `_cloneArray` over the
indexed slots: clones of the present values, in index order, indices
forgotten. -/
def cloneElems : Elems → List Val
  | .nil => []
  | .cons _ v rest => clone v :: cloneElems rest

/-- The attribute pass of `_cloneArray`, split by the `isNaN` test on the
name: the first component collects the clones that are pushed (numeric-like
names, in enumeration order), the second the attributes kept in place
(non-numeric names, values cloned). -/
def cloneProps : Fields → List Val × Fields
  | .nil => ([], .nil)
  | .cons k v rest =>
      let p := cloneProps rest
      if jsNumericStr k then (clone v :: p.1, p.2)
      else (p.1, .cons k (clone v) p.2)

/-- The key-by-key copy used by `_cloneObject`. -/
def cloneFields : Fields → Fields
  | .nil => .nil
  | .cons k v rest => .cons k (clone v) (cloneFields rest)
end

mutual
/-- `true` when `clone` reproduces the value exactly: every array reachable
inside it is dense (indices exactly `0, 1, ...` in order) and carries no
attribute with a numeric-like name (such an attribute would be pushed into
the slots, see `clone`).  Every output of `clone` satisfies this. -/
def denseV : Val → Bool
  | .varr elems props => denseElems elems 0 && (namesOk props && denseFields props)
  | .vobj fields => denseFields fields
  | _ => true

def denseElems : Elems → Nat → Bool
  | .nil, _ => true
  | .cons i v rest, n => (i == n) && denseV v && denseElems rest (n + 1)

def denseFields : Fields → Bool
  | .nil => true
  | .cons _ v rest => denseV v && denseFields rest
end

/-!
## Navigation wrapper

`_safeWrap` (src/objectutil.js:88-114) returns a `Proxy`.  Its target is
either the (already cloned) object itself, or, for a non-object input, the
box `{[wrapKey]: {value: input}}`.  A proxy is modelled by which of the two
targets it carries.  `wrapKey` is a module-private `Symbol`: no string key
ever compares equal to it, `Object.keys` never lists it, and no embedded
`Val` can carry it.
-/

inductive Wrapped where
  | real (target : Val)
  | box (value : Val)
deriving DecidableEq

/-- `_safeWrap` applied to a plain (non-proxy) value.  The entry guard
`input && input[wrapKey]` can never fire here: a plain value has no
`wrapKey` property, so `input[wrapKey]` is `undefined` (falsy).  Object-typed
inputs are proxied directly, everything else is boxed first. -/
def _safeWrap (input : Val) : Wrapped :=
  if isObjectType input then .real input else .box input

/-- `safeWrap` (src/objectutil.js:122-124): clone, then `_safeWrap`. -/
def safeWrap (input : Val) : Wrapped :=
  _safeWrap (clone input)

/-- The proxy `get` handler (src/objectutil.js:104-112) for a string key.
A string key is never the symbol `wrapKey`, so the handler returns
`safeWrap(target[key])`.  The box target owns no string key at all, so a
read through a box yields `safeWrap(undefined)`. -/
def getW (w : Wrapped) (key : String) : Wrapped :=
  match w with
  | .real t => safeWrap (getProp t key)
  | .box _ => safeWrap .vundefined

/-- A chain of property accesses on a wrapped value. -/
def getChainW (w : Wrapped) (path : List String) : Wrapped :=
  path.foldl getW w

/-- `unwrap` (src/objectutil.js:132-134) on a wrapped value: the handler sees
the key `wrapKey`; a real target has no `wrapKey` property (falsy), so the
target itself is returned, while a box returns `target[wrapKey].value`. -/
def unwrap : Wrapped → Val
  | .real t => t
  | .box v => v

/-- Walking a path by repeated plain property reads; a missing key yields
`undefined` and every further step on `undefined` (or on any primitive)
stays `undefined`. -/
def resolve (v : Val) (path : List String) : Val :=
  path.foldl getProp v

/-- `unwrap` applied to a plain value that was never wrapped: reading the
private symbol off `null` or `undefined` throws a TypeError; every other
value simply has no such property (the symbol never escapes the module), so
the read yields `undefined`. -/
def unwrapRaw : Val → Except Unit Val
  | .vnull => .error ()
  | .vundefined => .error ()
  | _ => .ok .vundefined

mutual
/-- `clone` applied to a proxy over the object-typed target `t` (every real
target produced by `safeWrap` is itself a clone, hence dense).  `typeof
proxy` mirrors the target, so `_cloneObject`/`_cloneArray` walk
`Object.keys(target)`; each read `proxy[key]` yields `safeWrap(target[key])`,
and cloning that wrapper recurses: an object-typed child is walked the same
way (its extra clone step is the identity on dense values, see
`clone_dense_id`), while a boxed child is a plain object whose only own key
is a symbol, so `Object.keys` is empty and its clone is `{}`.  A `Date`
target passes `proxy instanceof Date`, and `_cloneObject` then calls
`proxy.getTime()` — but the handler has turned `getTime` into a wrapped
(non-callable) proxy, so the call throws a TypeError, modelled by
`.error ()`. -/
def mangleClone : Val → Except Unit Val
  | .vdate _ => .error ()
  | .varr elems props => do
      let es ← mangleElems elems
      let ps ← mangleProps props
      .ok (.varr (densify (es ++ ps.1) 0) ps.2)
  | .vobj fields => do
      let fs ← mangleFields fields
      .ok (.vobj fs)
  | _ => .ok (.vobj .nil)

/-- A child read through the proxy is `safeWrap(target[key])`, and cloning
that wrapper gives: for a non-object child, the clone of a box proxy, which
is `{}`; for an object-typed child, a recursive mangle. -/
def mangleElems : Elems → Except Unit (List Val)
  | .nil => .ok []
  | .cons _ v rest => do
      let v2 ← if isObjectType v then mangleClone v else .ok (.vobj .nil)
      let vs ← mangleElems rest
      .ok (v2 :: vs)

/-- The attribute pass of `_cloneArray` through the proxy: the same `isNaN`
split on names as in `cloneProps`, each child mangled. -/
def mangleProps : Fields → Except Unit (List Val × Fields)
  | .nil => .ok ([], .nil)
  | .cons k v rest => do
      let v2 ← if isObjectType v then mangleClone v else .ok (.vobj .nil)
      let p ← mangleProps rest
      if jsNumericStr k then .ok (v2 :: p.1, p.2)
      else .ok (p.1, .cons k v2 p.2)

/-- The key-by-key copy of `_cloneObject` through the proxy. -/
def mangleFields : Fields → Except Unit Fields
  | .nil => .ok .nil
  | .cons k v rest => do
      let v2 ← if isObjectType v then mangleClone v else .ok (.vobj .nil)
      let fs ← mangleFields rest
      .ok (.cons k v2 fs)
end

/-- The own enumerable string-keyed entries an object spread `{...v}`
contributes.  Objects contribute their fields, arrays their indexed slots
(under their decimal keys) followed by their extra attributes, strings their
indexed characters; `null`, `undefined`, numbers, booleans, functions and
dates contribute nothing. -/
def spreadFields : Val → Fields
  | .vobj f => f
  | .varr elems props => (spreadElems elems).append props
  | .vstr s => spreadChars s.toList 0
  | _ => .nil
where
  spreadElems : Elems → Fields
    | .nil => .nil
    | .cons i v rest => .cons (toString i) v (spreadElems rest)
  spreadChars : List Char → Nat → Fields
    | [], _ => .nil
    | c :: rest, n => .cons (toString n) (.vstr (String.mk [c])) (spreadChars rest (n + 1))

/-- The entries of `a`, each overridden by `b`'s value when `b` also carries
the key (the first half of the object literal `{...a, ...b}`). -/
def overlayFields : Fields → Fields → Fields
  | .nil, _ => .nil
  | .cons k v rest, b => .cons k ((b.lookup k).getD v) (overlayFields rest b)

/-- The entries of `b` whose keys are absent from `a`, in `b`'s order (the
second half of `{...a, ...b}`). -/
def restFields : Fields → Fields → Fields
  | .nil, _ => .nil
  | .cons k v rest, a =>
      if (a.lookup k).isSome then restFields rest a
      else .cons k v (restFields rest a)

/-- The object literal `{...a, ...b}`: `a`'s keys in order with `b`'s values
winning on collision, then `b`'s new keys in `b`'s order. -/
def spreadMerge (a b : Fields) : Fields :=
  (overlayFields a b).append (restFields b a)

/-- The `clonedArray.some((object, i) => ...)` scan of `_updateIn`
(src/objectutil.js:152-161).  At each element, `updatedObject[key]` (safe:
the candidate is truthy) is compared by `===` with `object[key]` (which
throws if the element is `null` or `undefined`); at the first match the slot
is replaced by `{...clonedArray[i], ...clone(updatedObject)}` and the scan
stops, leaving the rest untouched. -/
def scanUpdate (cand : Val) (key : String) : Elems → Except Unit (Bool × Elems)
  | .nil => .ok (false, .nil)
  | .cons i obj rest => do
      let pv ← getPropE obj key
      if jsStrictEq (getProp cand key) pv then
        .ok (true, .cons i (.vobj (spreadMerge (spreadFields obj) (spreadFields (clone cand)))) rest)
      else do
        let (upd, rest2) ← scanUpdate cand key rest
        .ok (upd, .cons i obj rest2)

/-- `_updateIn` (src/objectutil.js:145-164): clone `array || []`; when the
candidate is truthy, scan the clone.  Calling `.some` on a truthy non-array
clone throws a TypeError (`.error ()`); when the candidate is falsy the scan
is skipped and the clone is returned with `updated = false`. -/
def _updateIn (array cand : Val) (key : String) : Except Unit (Bool × Val) :=
  let cloned := clone (if jsTruthy array then array else .varr .nil .nil)
  if jsTruthy cand then
    match cloned with
    | .varr elems props =>
        (scanUpdate cand key elems).map (fun r => (r.1, Val.varr r.2 props))
    | _ => .error ()
  else .ok (false, cloned)

/-- `updateOrAppend` (src/objectutil.js:186-193): run `_updateIn`; if nothing
was updated and the candidate is truthy, push a clone of the candidate onto
the cloned array.  (When the candidate is truthy and `_updateIn` succeeded,
its array is necessarily a `varr`; the last branch is unreachable.) -/
def updateOrAppend (array cand : Val) (key : String) : Except Unit Val := do
  let (upd, arr) ← _updateIn array cand key
  if !upd && jsTruthy cand then
    match arr with
    | .varr elems props => .ok (.varr (elems.push (clone cand)) props)
    | other => .ok other
  else .ok arr

/-- A dense record list, as a JavaScript array value. -/
def mkArr (l : List Val) : Val :=
  .varr (densify l 0) .nil

/-- How many records of the list carry, at `key`, a value structurally equal
to `idv`. -/
def countIdEq (idv : Val) (key : String) (l : List Val) : Nat :=
  (l.filter (fun y => getProp y key == idv)).length

/-- The same count, read off an `updateOrAppend` result. -/
def countIdEqRes (idv : Val) (key : String) : Except Unit Val → Nat
  | .ok (.varr elems _) => countIdEq idv key elems.vals
  | _ => 0

/-!
## Non-core converters (src/unnamed/part_002)
-/

/-- `Object.keys(v).map(key => v[key])`: the own enumerable values of `v`,
in key-enumeration order (array slots first, then extra attributes). -/
def ownValues : Val → List Val
  | .vobj f => f.vals
  | .varr elems props => elems.vals ++ props.vals
  | _ => []

/-- `toArray` (src/unnamed/part_002:88-94), without the optional mapper: the
guard accepts any non-null value of runtime type `'object'` — plain objects,
but also arrays and dates — and otherwise throws. -/
def toArray (object : Val) : Except Unit Val :=
  if isObjectType object then .ok (mkArr (ownValues object)) else .error ()

/-- `toObject` (src/unnamed/part_002:106-114), without key or mapper: the
guard is `Array.isArray`; `reduce` visits the present slots with their real
indices and files each value under `String(i)`. -/
def toObject (array : Val) : Except Unit Val :=
  match array with
  | .varr elems _ => .ok (.vobj (toObjFields elems))
  | _ => .error ()
where
  toObjFields : Elems → Fields
    | .nil => .nil
    | .cons i v rest => .cons (toString i) v (toObjFields rest)

/-!
## Address-carrying model

To state the no-aliasing claims, the same value language is repeated with an
explicit address on every mutable container (object, array, date): two
containers alias exactly when they carry the same address.  Primitives and
functions carry no address (the spec allows callables to be shared).
Allocation is modelled by threading a counter of the next fresh address, in
left-to-right evaluation order; the claims only depend on freshness, never
on which concrete address an allocation picks.
-/

mutual
inductive AVal where
  | aundefined
  | anull
  | abool (b : Bool)
  | anum (n : Int)
  | astr (s : String)
  | afun (id : Nat)
  | adate (addr : Nat) (t : Int)
  | aarr (addr : Nat) (elems : AElems) (props : AFields)
  | aobj (addr : Nat) (fields : AFields)
deriving DecidableEq

inductive AElems where
  | nil
  | cons (idx : Nat) (v : AVal) (rest : AElems)
deriving DecidableEq

inductive AFields where
  | nil
  | cons (key : String) (v : AVal) (rest : AFields)
deriving DecidableEq
end

mutual
/-- The addresses of all containers reachable from the value. -/
def addrsA : AVal → List Nat
  | .adate a _ => [a]
  | .aarr a elems props => a :: (addrsAElems elems ++ addrsAFields props)
  | .aobj a fields => a :: addrsAFields fields
  | _ => []

def addrsAElems : AElems → List Nat
  | .nil => []
  | .cons _ v rest => addrsA v ++ addrsAElems rest

def addrsAFields : AFields → List Nat
  | .nil => []
  | .cons _ v rest => addrsA v ++ addrsAFields rest
end

/-- All container addresses of the value are below `n` (so an allocator whose
next fresh address is `n` shares nothing with it). -/
def boundedA (v : AVal) (n : Nat) : Prop :=
  ∀ a ∈ addrsA v, a < n

instance (v : AVal) (n : Nat) : Decidable (boundedA v n) :=
  List.decidableBAll (fun a => a < n) (addrsA v)

/-- The value of a non-throwing run (`undefined`, with no addresses, on a
throw: only used to state address facts uniformly). -/
def resA (e : Except Unit (AVal × Nat)) : AVal :=
  match e with
  | .ok p => p.1
  | .error _ => .aundefined

def adensify : List AVal → Nat → AElems
  | [], _ => .nil
  | v :: rest, n => .cons n v (adensify rest (n + 1))

mutual
/-- `clone` in the addressed model: identical structure to `clone` — the
same `push`/assign split of array attributes by the `isNaN` test on the
name, via `cloneAProps` — except that every container built by the copy
receives a fresh address from the allocation counter, threaded in
evaluation order.  Primitives keep no address; a rebound function keeps its
behaviour identifier. -/
def cloneA : AVal → Nat → AVal × Nat
  | .aundefined, n => (.aundefined, n)
  | .anull, n => (.anull, n)
  | .abool b, n => (.abool b, n)
  | .anum m, n => (.anum m, n)
  | .astr s, n => (.astr s, n)
  | .afun id, n => (.afun id, n)
  | .adate _ t, n => (.adate n t, n + 1)
  | .aarr _ elems props, n =>
      let ep := cloneAElems elems (n + 1)
      let pp := cloneAProps props ep.2
      (.aarr n (adensify (ep.1 ++ pp.1.1) 0) pp.1.2, pp.2)
  | .aobj _ fields, n =>
      let fp := cloneAFields fields (n + 1)
      (.aobj n fp.1, fp.2)

def cloneAElems : AElems → Nat → List AVal × Nat
  | .nil, n => ([], n)
  | .cons _ v rest, n =>
      let vp := cloneA v n
      let rp := cloneAElems rest vp.2
      (vp.1 :: rp.1, rp.2)

/-- The attribute pass: pushed clones (numeric-like names) and kept
attributes (non-numeric names), one allocation per cloned value in
enumeration order. -/
def cloneAProps : AFields → Nat → (List AVal × AFields) × Nat
  | .nil, n => (([], .nil), n)
  | .cons k v rest, n =>
      let vp := cloneA v n
      let rp := cloneAProps rest vp.2
      if jsNumericStr k then ((vp.1 :: rp.1.1, rp.1.2), rp.2)
      else ((rp.1.1, .cons k vp.1 rp.1.2), rp.2)

def cloneAFields : AFields → Nat → AFields × Nat
  | .nil, n => (.nil, n)
  | .cons k v rest, n =>
      let vp := cloneA v n
      let rp := cloneAFields rest vp.2
      (.cons k vp.1 rp.1, rp.2)
end

/-- Writes value `x` under key `k` of an existing field list entry, or
appends the key: the JavaScript assignment `o[k] = x` on a plain object. -/
def AFields.set : AFields → String → AVal → AFields
  | .nil, k, x => .cons k x .nil
  | .cons k2 v rest, k, x =>
      if k2 = k then .cons k2 x rest else .cons k2 v (rest.set k x)

mutual
/-- In-place mutation of the container at address `tgt`: the assignment
`c[k] = x` performed through some reference `c`.  The node carrying `tgt`
(unique in a well-formed heap) gets the field written; every other node is
rebuilt unchanged.  A date at `tgt` is bumped to a different instant instead
(dates have no string fields; this stands for `setTime`). -/
def setFieldAt (tgt : Nat) (k : String) (x : AVal) : AVal → AVal
  | .adate a t => if a = tgt then .adate a (t + 1) else .adate a t
  | .aarr a elems props =>
      if a = tgt then .aarr a elems (props.set k x)
      else .aarr a (setFieldAtElems tgt k x elems) (setFieldAtFields tgt k x props)
  | .aobj a fields =>
      if a = tgt then .aobj a (fields.set k x)
      else .aobj a (setFieldAtFields tgt k x fields)
  | v => v

def setFieldAtElems (tgt : Nat) (k : String) (x : AVal) : AElems → AElems
  | .nil => .nil
  | .cons i v rest => .cons i (setFieldAt tgt k x v) (setFieldAtElems tgt k x rest)

def setFieldAtFields (tgt : Nat) (k : String) (x : AVal) : AFields → AFields
  | .nil => .nil
  | .cons k2 v rest => .cons k2 (setFieldAt tgt k x v) (setFieldAtFields tgt k x rest)
end

def AFields.lookup : AFields → String → Option AVal
  | .nil, _ => none
  | .cons k v rest, key => if k = key then some v else rest.lookup key

def AFields.append : AFields → AFields → AFields
  | .nil, g => g
  | .cons k v rest, g => .cons k v (rest.append g)

def AElems.lookupIdx : AElems → Nat → Option AVal
  | .nil, _ => none
  | .cons i v rest, n => if i = n then some v else rest.lookupIdx n

def AElems.jsLen : AElems → Nat
  | .nil => 0
  | .cons i _ rest => max (i + 1) rest.jsLen

def AElems.push (e : AElems) (v : AVal) : AElems :=
  go e
where
  go : AElems → AElems
    | .nil => .cons e.jsLen v .nil
    | .cons i w rest => .cons i w (go rest)

def jsTruthyA : AVal → Bool
  | .aundefined => false
  | .anull => false
  | .abool b => b
  | .anum n => n != 0
  | .astr s => s != ""
  | _ => true

/-- Strict equality in the `_updateIn` comparison position, addressed model:
as for `jsStrictEq`, the operands come from disjoint object graphs, so a
non-primitive comparison is never reference-equal. -/
def jsStrictEqA : AVal → AVal → Bool
  | .aundefined, .aundefined => true
  | .anull, .anull => true
  | .abool a, .abool b => a == b
  | .anum a, .anum b => a == b
  | .astr a, .astr b => a == b
  | _, _ => false

def getPropA : AVal → String → AVal
  | .aobj _ fields, k => (fields.lookup k).getD .aundefined
  | .aarr _ elems props, k =>
      match k.toNat? with
      | some n => if toString n = k then (elems.lookupIdx n).getD .aundefined
                  else (props.lookup k).getD .aundefined
      | none => (props.lookup k).getD .aundefined
  | _, _ => .aundefined

def getPropAE : AVal → String → Except Unit AVal
  | .anull, _ => .error ()
  | .aundefined, _ => .error ()
  | v, k => .ok (getPropA v k)

def spreadFieldsA : AVal → AFields
  | .aobj _ f => f
  | .aarr _ elems props => (spreadElemsA elems).append props
  | .astr s => spreadCharsA s.toList 0
  | _ => .nil
where
  spreadElemsA : AElems → AFields
    | .nil => .nil
    | .cons i v rest => .cons (toString i) v (spreadElemsA rest)
  spreadCharsA : List Char → Nat → AFields
    | [], _ => .nil
    | c :: rest, n => .cons (toString n) (.astr (String.mk [c])) (spreadCharsA rest (n + 1))

def overlayFieldsA : AFields → AFields → AFields
  | .nil, _ => .nil
  | .cons k v rest, b => .cons k ((b.lookup k).getD v) (overlayFieldsA rest b)

def restFieldsA : AFields → AFields → AFields
  | .nil, _ => .nil
  | .cons k v rest, a =>
      if (a.lookup k).isSome then restFieldsA rest a
      else .cons k v (restFieldsA rest a)

def spreadMergeA (a b : AFields) : AFields :=
  (overlayFieldsA a b).append (restFieldsA b a)

/-- The `_updateIn` scan in the addressed model.  At the matching slot,
`clone(updatedObject)` allocates first, then the object literal
`{...clonedArray[i], ...clone(updatedObject)}` allocates one fresh object
whose field values are shared by reference with its two sources. -/
def scanUpdateA (cand : AVal) (key : String) : AElems → Nat → Except Unit ((Bool × AElems) × Nat)
  | .nil, n => .ok ((false, .nil), n)
  | .cons i obj rest, n => do
      let pv ← getPropAE obj key
      if jsStrictEqA (getPropA cand key) pv then
        let (cc, n1) := cloneA cand n
        .ok ((true, .cons i (.aobj n1 (spreadMergeA (spreadFieldsA obj) (spreadFieldsA cc))) rest), n1 + 1)
      else do
        let ((upd, rest2), n1) ← scanUpdateA cand key rest n
        .ok ((upd, .cons i obj rest2), n1)

/-- `_updateIn` in the addressed model: the literal `[]` (evaluated only when
`array` is falsy) allocates a fresh empty array, which is then cloned. -/
def _updateInA (array cand : AVal) (key : String) (n : Nat) : Except Unit ((Bool × AVal) × Nat) :=
  let bp := if jsTruthyA array then (array, n) else (.aarr n .nil .nil, n + 1)
  let cp := cloneA bp.1 bp.2
  if jsTruthyA cand then
    match cp.1 with
    | .aarr a elems props =>
        (scanUpdateA cand key elems cp.2).map (fun r => ((r.1.1, AVal.aarr a r.1.2 props), r.2))
    | _ => .error ()
  else .ok ((false, cp.1), cp.2)

/-- `updateOrAppend` in the addressed model. -/
def updateOrAppendA (array cand : AVal) (key : String) (n : Nat) : Except Unit (AVal × Nat) := do
  let q ← _updateInA array cand key n
  if !q.1.1 && jsTruthyA cand then
    match q.1.2 with
    | .aarr a elems props =>
        let cp := cloneA cand q.2
        .ok (.aarr a (elems.push cp.1) props, cp.2)
    | other => .ok (other, q.2)
  else .ok (q.1.2, q.2)

/-- `true` exactly on a non-throwing result. -/
def isOkB {α : Type} : Except Unit α → Bool
  | .ok _ => true
  | .error _ => false

/-- `firstSome a b` is `a` when present, else `b`. -/
def firstSome (a b : Option Val) : Option Val :=
  match a with
  | some v => some v
  | none => b

/-!
## Basic lemmas: densify, append, push
-/

theorem Elems.vals_append : ∀ e1 e2 : Elems, (e1.append e2).vals = e1.vals ++ e2.vals
  | .nil, _ => rfl
  | .cons i v rest, e2 => by simp [Elems.append, Elems.vals, Elems.vals_append rest e2]

theorem vals_densify (l : List Val) (n : Nat) : (densify l n).vals = l := by
  induction l generalizing n with
  | nil => rfl
  | cons v rest ih => simp [densify, Elems.vals, ih]

theorem denseElems_densify (l : List Val) (n : Nat) :
    denseElems (densify l n) n = l.all denseV := by
  induction l generalizing n with
  | nil => rfl
  | cons v rest ih => simp [densify, denseElems, ih, Bool.and_assoc]

theorem namesOk_cloneProps : ∀ f : Fields, namesOk (cloneProps f).2 = true
  | .nil => rfl
  | .cons k v rest => by
      by_cases hk : jsNumericStr k = true
      · simp [cloneProps, hk, namesOk_cloneProps rest]
      · simp only [Bool.not_eq_true] at hk
        simp [cloneProps, hk, namesOk, namesOk_cloneProps rest]

theorem cloneProps_namesOk : ∀ f : Fields, namesOk f = true →
    cloneProps f = ([], cloneFields f)
  | .nil, _ => rfl
  | .cons k v rest, h => by
      simp only [namesOk, Bool.and_eq_true, Bool.not_eq_true'] at h
      simp [cloneProps, h.1, cloneFields, cloneProps_namesOk rest h.2]

mutual
theorem dense_clone : ∀ v : Val, denseV (clone v) = true
  | .vundefined => rfl
  | .vnull => rfl
  | .vbool _ => rfl
  | .vnum _ => rfl
  | .vstr _ => rfl
  | .vfun _ => rfl
  | .vdate _ => rfl
  | .varr elems props => by
      simp only [clone, denseV, Bool.and_eq_true]
      refine ⟨?_, namesOk_cloneProps props, (dense_cloneProps props).2⟩
      rw [denseElems_densify]
      simp only [List.all_append, Bool.and_eq_true]
      exact ⟨dense_cloneElems elems, (dense_cloneProps props).1⟩
  | .vobj fields => by simp [clone, denseV, dense_cloneFields fields]

theorem dense_cloneElems : ∀ e : Elems, (cloneElems e).all denseV = true
  | .nil => rfl
  | .cons _ v rest => by
      simp [cloneElems, List.all_cons, dense_clone v, dense_cloneElems rest]

theorem dense_cloneProps : ∀ f : Fields,
    ((cloneProps f).1.all denseV = true) ∧ (denseFields (cloneProps f).2 = true)
  | .nil => ⟨rfl, rfl⟩
  | .cons k v rest => by
      obtain ⟨h1, h2⟩ := dense_cloneProps rest
      by_cases hk : jsNumericStr k = true
      · simp [cloneProps, hk, List.all_cons, dense_clone v, h1, h2]
      · simp only [Bool.not_eq_true] at hk
        simp [cloneProps, hk, List.all_cons, denseFields, dense_clone v, h1, h2]

theorem dense_cloneFields : ∀ f : Fields, denseFields (cloneFields f) = true
  | .nil => rfl
  | .cons _ v rest => by
      simp [cloneFields, denseFields, dense_clone v, dense_cloneFields rest]
end

mutual
theorem clone_dense_id : ∀ v : Val, denseV v = true → clone v = v
  | .vundefined, _ => rfl
  | .vnull, _ => rfl
  | .vbool _, _ => rfl
  | .vnum _, _ => rfl
  | .vstr _, _ => rfl
  | .vfun _, _ => rfl
  | .vdate _, _ => rfl
  | .varr elems props, h => by
      simp only [denseV, Bool.and_eq_true] at h
      simp [clone, cloneProps_namesOk props h.2.1, densifyClone_dense elems 0 h.1,
        cloneFields_dense_id props h.2.2]
  | .vobj fields, h => by
      simp only [denseV] at h
      simp [clone, cloneFields_dense_id fields h]

theorem densifyClone_dense : ∀ (e : Elems) (n : Nat),
    denseElems e n = true → densify (cloneElems e) n = e
  | .nil, _, _ => rfl
  | .cons i v rest, n, h => by
      simp only [denseElems, Bool.and_eq_true, beq_iff_eq] at h
      simp [cloneElems, densify, h.1.1, clone_dense_id v h.1.2,
        densifyClone_dense rest (n + 1) h.2]

theorem cloneFields_dense_id : ∀ f : Fields, denseFields f = true → cloneFields f = f
  | .nil, _ => rfl
  | .cons k v rest, h => by
      simp only [denseFields, Bool.and_eq_true] at h
      simp [cloneFields, clone_dense_id v h.1, cloneFields_dense_id rest h.2]
end

theorem clone_clone (v : Val) : clone (clone v) = clone v :=
  clone_dense_id (clone v) (dense_clone v)

/-!
## Dense values are stable under property lookup; wrapper navigation
-/

theorem denseFields_lookup : ∀ (f : Fields) (k : String) (v : Val),
    denseFields f = true → f.lookup k = some v → denseV v = true
  | .cons k2 w rest, k, v, h, hl => by
      simp only [denseFields, Bool.and_eq_true] at h
      by_cases hk : k2 = k
      · rw [Fields.lookup, if_pos hk] at hl
        cases hl; exact h.1
      · rw [Fields.lookup, if_neg hk] at hl
        exact denseFields_lookup rest k v h.2 hl

theorem denseElems_lookupIdx : ∀ (e : Elems) (n m : Nat) (v : Val),
    denseElems e n = true → e.lookupIdx m = some v → denseV v = true
  | .cons i w rest, n, m, v, h, hl => by
      simp only [denseElems, Bool.and_eq_true, beq_iff_eq] at h
      by_cases hi : i = m
      · rw [Elems.lookupIdx, if_pos hi] at hl
        cases hl; exact h.1.2
      · rw [Elems.lookupIdx, if_neg hi] at hl
        exact denseElems_lookupIdx rest (n + 1) m v h.2 hl

theorem getProp_dense (t : Val) (k : String) (h : denseV t = true) :
    denseV (getProp t k) = true := by
  cases t with
  | vobj fields =>
      simp only [denseV] at h
      simp only [getProp]
      cases hl : fields.lookup k with
      | none => rfl
      | some v => simpa using denseFields_lookup fields k v h hl
  | varr elems props =>
      simp only [denseV, Bool.and_eq_true] at h
      cases hk : k.toNat? with
      | none =>
          simp only [getProp, hk]
          cases hl : props.lookup k with
          | none => rfl
          | some v => simpa using denseFields_lookup props k v h.2.2 hl
      | some n =>
          simp only [getProp, hk]
          by_cases hs : toString n = k
          · rw [if_pos hs]
            cases hl : elems.lookupIdx n with
            | none => rfl
            | some v => simpa using denseElems_lookupIdx elems 0 n v h.1 hl
          · rw [if_neg hs]
            cases hl : props.lookup k with
            | none => rfl
            | some v => simpa using denseFields_lookup props k v h.2.2 hl
  | vundefined => rfl
  | vnull => rfl
  | vbool b => rfl
  | vnum n => rfl
  | vstr s => rfl
  | vfun id => rfl
  | vdate t => rfl

theorem getProp_nonObject (t : Val) (k : String) (h : isObjectType t = false) :
    getProp t k = .vundefined := by
  cases t <;> simp_all [isObjectType, getProp]

theorem unwrap_safeWrapPlain (t : Val) : unwrap (_safeWrap t) = t := by
  simp only [_safeWrap]
  split <;> rfl

theorem getW_safeWrapPlain (t : Val) (k : String) (h : denseV t = true) :
    getW (_safeWrap t) k = _safeWrap (getProp t k) := by
  by_cases ho : isObjectType t = true
  · simp only [_safeWrap, ho, if_true, getW, safeWrap,
      clone_dense_id _ (getProp_dense t k h)]
  · have hv : getProp t k = .vundefined :=
      getProp_nonObject t k (Bool.not_eq_true _ ▸ ho)
    simp only [_safeWrap, ho, if_false, Bool.false_eq_true, getW, safeWrap, hv]
    rfl

theorem getChainW_safeWrapPlain : ∀ (p : List String) (t : Val), denseV t = true →
    getChainW (_safeWrap t) p = _safeWrap (resolve t p)
  | [], _, _ => rfl
  | k :: p, t, h => by
      show getChainW (getW (_safeWrap t) k) p = _safeWrap (resolve (getProp t k) p)
      rw [getW_safeWrapPlain t k h]
      exact getChainW_safeWrapPlain p (getProp t k) (getProp_dense t k h)

theorem resolve_vundefined : ∀ p : List String, resolve .vundefined p = .vundefined
  | [] => rfl
  | _ :: p => resolve_vundefined p

theorem resolve_append (t : Val) (p1 p2 : List String) :
    resolve t (p1 ++ p2) = resolve (resolve t p1) p2 := by
  simp [resolve, List.foldl_append]

/-!
## Lookup in spread merges
-/

theorem lookup_append : ∀ (f g : Fields) (k : String),
    (f.append g).lookup k = firstSome (f.lookup k) (g.lookup k)
  | .nil, _, _ => rfl
  | .cons k2 v rest, g, k => by
      by_cases h : k2 = k <;>
        simp [Fields.append, Fields.lookup, h, firstSome, lookup_append rest g k]

theorem lookup_overlay : ∀ (a b : Fields) (k : String),
    (overlayFields a b).lookup k = (a.lookup k).map (fun v => (b.lookup k).getD v)
  | .nil, _, _ => rfl
  | .cons k2 v rest, b, k => by
      by_cases h : k2 = k
      · subst h; simp [overlayFields, Fields.lookup]
      · simp [overlayFields, Fields.lookup, h, lookup_overlay rest b k]

theorem lookup_rest : ∀ (b a : Fields) (k : String),
    (restFields b a).lookup k = if (a.lookup k).isSome then none else b.lookup k
  | .nil, a, k => by simp [restFields, Fields.lookup, ite_self]
  | .cons k2 v rest, a, k => by
      by_cases hs : (a.lookup k2).isSome
      · rw [restFields, if_pos hs, lookup_rest rest a k]
        by_cases hk : k2 = k
        · subst hk; simp [Fields.lookup, hs, if_pos hs]
        · simp [Fields.lookup, hk]
      · rw [restFields, if_neg hs]
        by_cases hk : k2 = k
        · subst hk; simp [Fields.lookup, hs]
        · simp [Fields.lookup, hk, lookup_rest rest a k]

theorem lookup_spreadMerge (a b : Fields) (k : String) :
    (spreadMerge a b).lookup k = firstSome (b.lookup k) (a.lookup k) := by
  rw [spreadMerge, lookup_append, lookup_overlay, lookup_rest]
  cases ha : a.lookup k <;> cases hb : b.lookup k <;> simp [firstSome, ha, hb]


/-!
## Scan lemmas for `_updateIn` / `updateOrAppend`
-/

theorem ok_bind {α β : Type} (a : α) (f : α → Except Unit β) :
    (Except.ok a : Except Unit α) >>= f = f a := rfl

theorem error_bind {α β : Type} (f : α → Except Unit β) :
    (Except.error () : Except Unit α) >>= f = Except.error () := rfl

theorem ok_map {α β : Type} (a : α) (f : α → β) :
    Except.map f (Except.ok a : Except Unit α) = .ok (f a) := rfl

theorem error_map {α β : Type} (f : α → β) :
    Except.map f (Except.error () : Except Unit α) = .error () := rfl

theorem getPropE_rec (y : Val) (k : String) (h : isRec y = true) :
    getPropE y k = .ok (getProp y k) := by
  cases y <;> simp_all [isRec, getPropE]

theorem jsTruthy_rec (y : Val) (h : isRec y = true) : jsTruthy y = true := by
  cases y <;> simp_all [isRec, jsTruthy]

theorem isRec_clone (y : Val) : isRec (clone y) = isRec y := by
  cases y <;> simp [isRec, clone]

theorem cloneElems_densify : ∀ (l : List Val) (n : Nat),
    cloneElems (densify l n) = l.map clone
  | [], _ => rfl
  | v :: rest, n => by
      simp [densify, cloneElems, cloneElems_densify rest (n + 1)]

theorem jsStrictEq_true_iff (a b : Val) :
    jsStrictEq a b = true ↔ a = b ∧ isPrimB a = true := by
  cases a <;> cases b <;> simp [jsStrictEq, isPrimB]

theorem scanUpdate_nil (cand : Val) (key : String) :
    scanUpdate cand key .nil = .ok (false, .nil) := rfl

theorem scanUpdate_cons (cand : Val) (key : String) (i : Nat) (obj : Val) (rest : Elems)
    (h : isRec obj = true) :
    scanUpdate cand key (.cons i obj rest)
      = if jsStrictEq (getProp cand key) (getProp obj key) then
          .ok (true, .cons i (.vobj (spreadMerge (spreadFields obj) (spreadFields (clone cand)))) rest)
        else
          (scanUpdate cand key rest).map (fun r => (r.1, .cons i obj r.2)) := by
  rw [scanUpdate]
  rw [getPropE_rec obj key h, ok_bind]
  by_cases hm : jsStrictEq (getProp cand key) (getProp obj key) = true
  · simp only [hm, if_true]
  · simp only [Bool.not_eq_true] at hm
    simp only [hm, Bool.false_eq_true, if_false]
    cases hr : scanUpdate cand key rest with
    | error e => cases e; rw [error_bind, error_map]
    | ok r => rw [ok_bind, ok_map]

theorem scan_isOk : ∀ (cand : Val) (key : String) (e : Elems),
    (∀ v ∈ e.vals, isRec v = true) → isOkB (scanUpdate cand key e) = true
  | _, _, .nil, _ => rfl
  | cand, key, .cons i obj rest, h => by
      have hobj : isRec obj = true := h obj (by simp [Elems.vals])
      have hrest := scan_isOk cand key rest
        (fun v hv => h v (by simp [Elems.vals, hv]))
      rw [scanUpdate_cons cand key i obj rest hobj]
      by_cases hm : jsStrictEq (getProp cand key) (getProp obj key) = true
      · simp [hm, isOkB]
      · simp only [Bool.not_eq_true] at hm
        rw [hm]
        simp only [Bool.false_eq_true, if_false]
        cases hr : scanUpdate cand key rest with
        | error e => rw [hr] at hrest; simp [isOkB] at hrest
        | ok r => simp [ok_map, isOkB]

/-!
## Characterising `_updateIn` and `updateOrAppend`
-/

theorem updateIn_arr (array cand : Val) (key : String) (elems : Elems) (props : Fields)
    (hT : jsTruthy array = true) (hclone : clone array = .varr elems props)
    (hc : jsTruthy cand = true) :
    _updateIn array cand key
      = (scanUpdate cand key elems).map (fun r => (r.1, Val.varr r.2 props)) := by
  rw [_updateIn]
  simp only [hT, if_true, hclone, hc]

theorem updateOrAppend_of_updated (array cand : Val) (key : String) (arr : Val)
    (h : _updateIn array cand key = .ok (true, arr)) :
    updateOrAppend array cand key = .ok arr := by
  rw [updateOrAppend, h, ok_bind]
  simp

theorem updateOrAppend_of_not_updated (array cand : Val) (key : String)
    (elems : Elems) (props : Fields)
    (hc : jsTruthy cand = true)
    (h : _updateIn array cand key = .ok (false, .varr elems props)) :
    updateOrAppend array cand key = .ok (.varr (elems.push (clone cand)) props) := by
  rw [updateOrAppend, h, ok_bind]
  simp [hc]

theorem updateOrAppend_isOk (cand : Val) (key : String) (l : List Val)
    (hl : ∀ y ∈ l, isRec y = true) (hc : isRec cand = true) :
    isOkB (updateOrAppend (mkArr l) cand key) = true := by
  have hclone : clone (mkArr l) = .varr (densify (l.map clone) 0) .nil := by
    simp [mkArr, clone, cloneElems_densify, cloneProps, cloneFields]
  have hU := updateIn_arr (mkArr l) cand key (densify (l.map clone) 0) .nil rfl hclone
    (jsTruthy_rec cand hc)
  have hscan := scan_isOk cand key (densify (l.map clone) 0) (by
    intro v hv
    rw [vals_densify] at hv
    rcases List.mem_map.1 hv with ⟨y, hy, rfl⟩
    rw [isRec_clone]
    exact hl y hy)
  cases hs : scanUpdate cand key (densify (l.map clone) 0) with
  | error e => rw [hs] at hscan; simp [isOkB] at hscan
  | ok r =>
      rw [updateOrAppend, hU, hs, ok_map, ok_bind]
      by_cases hupd : r.1 = true
      · simp [hupd, isOkB]
      · simp only [Bool.not_eq_true] at hupd
        simp [hupd, isOkB, jsTruthy_rec cand hc]

/-!
## Counting records by identity-key value
-/

theorem Elems.vals_push (e : Elems) (v : Val) : (e.push v).vals = e.vals ++ [v] := by
  rw [Elems.push, Elems.vals_append]
  rfl

theorem countIdEq_nil (idv : Val) (key : String) : countIdEq idv key [] = 0 := rfl

theorem countIdEq_cons (idv : Val) (key : String) (z : Val) (l : List Val) :
    countIdEq idv key (z :: l)
      = (if (getProp z key == idv) = true then 1 else 0) + countIdEq idv key l := by
  by_cases h : (getProp z key == idv) = true
  · simp [countIdEq, List.filter_cons, h]
    omega
  · simp [countIdEq, List.filter_cons, h]

theorem countIdEq_append (idv : Val) (key : String) (l1 l2 : List Val) :
    countIdEq idv key (l1 ++ l2) = countIdEq idv key l1 + countIdEq idv key l2 := by
  simp [countIdEq, List.filter_append]

theorem countIdEq_eq_zero (idv : Val) (key : String) (l : List Val)
    (h : ∀ y ∈ l, (getProp y key == idv) = false) : countIdEq idv key l = 0 := by
  induction l with
  | nil => rfl
  | cons z rest ih =>
      rw [countIdEq_cons, h z (List.mem_cons_self z rest),
        ih (fun y hy => h y (List.mem_cons_of_mem z hy))]
      rfl

theorem lookup_cloneFields : ∀ (f : Fields) (k : String),
    (cloneFields f).lookup k = (f.lookup k).map clone
  | .nil, _ => rfl
  | .cons k2 v rest, k => by
      by_cases h : k2 = k <;>
        simp [cloneFields, Fields.lookup, h, lookup_cloneFields rest k]

theorem clone_prim_id (w : Val) (hw : isPrimB w = true) : clone w = w := by
  cases w <;> simp_all [isPrimB, clone]

/-- `clone` preserves and reflects equality with a primitive value: the
clone of a primitive is itself, and the clone of a non-primitive is never a
primitive. -/
theorem clone_eq_prim (p w : Val) (hp : isPrimB p = true) : clone w = p ↔ w = p := by
  cases w with
  | vundefined => simp [clone]
  | vnull => simp [clone]
  | vbool b => simp [clone]
  | vnum n => simp [clone]
  | vstr s => simp [clone]
  | vfun i => simp [clone]
  | vdate t => simp [clone]
  | varr e pr =>
      constructor
      · intro h; rw [← h] at hp; simp [clone, isPrimB] at hp
      · intro h; rw [← h] at hp; simp [isPrimB] at hp
  | vobj f =>
      constructor
      · intro h; rw [← h] at hp; simp [clone, isPrimB] at hp
      · intro h; rw [← h] at hp; simp [isPrimB] at hp

/-- A record's value at a key equals a primitive after cloning exactly when
it did before: cloning reshapes container attributes but never changes a
primitive field. -/
theorem getProp_clone_prim (y : Val) (key : String) (p : Val)
    (hy : isRec y = true) (hp : isPrimB p = true) :
    getProp (clone y) key = p ↔ getProp y key = p := by
  cases y with
  | vobj fy =>
      simp only [clone, getProp, lookup_cloneFields]
      cases hl : fy.lookup key with
      | none => simp
      | some w => simpa using clone_eq_prim p w hp
  | vundefined => exact absurd hy (by simp [isRec])
  | vnull => exact absurd hy (by simp [isRec])
  | vbool b => exact absurd hy (by simp [isRec])
  | vnum n => exact absurd hy (by simp [isRec])
  | vstr s => exact absurd hy (by simp [isRec])
  | vfun i => exact absurd hy (by simp [isRec])
  | vdate t => exact absurd hy (by simp [isRec])
  | varr e pr => exact absurd hy (by simp [isRec])

theorem getProp_clone_self (cand : Val) (key : String)
    (hc : isRec cand = true) (hp : isPrimB (getProp cand key) = true) :
    getProp (clone cand) key = getProp cand key :=
  (getProp_clone_prim cand key (getProp cand key) hc hp).2 rfl

/-- The merged record carries the candidate's (primitive) identity-key value
whenever the matched cloned record did. -/
theorem getProp_merged (cand y : Val) (key : String)
    (hc : isRec cand = true) (hy : isRec y = true)
    (hp : isPrimB (getProp cand key) = true)
    (hm : getProp (clone y) key = getProp cand key) :
    getProp (.vobj (spreadMerge (spreadFields (clone y)) (spreadFields (clone cand)))) key
      = getProp cand key := by
  cases cand with
  | vobj fc =>
      cases y with
      | vobj fy =>
          simp only [clone, spreadFields, getProp, lookup_spreadMerge,
            lookup_cloneFields] at hm ⊢
          cases hfc : fc.lookup key with
          | some w =>
              have hpw : isPrimB w = true := by
                simpa [getProp, hfc] using hp
              simp [hfc, firstSome, clone_prim_id w hpw]
          | none =>
              simpa [hfc, firstSome] using hm
      | vundefined => exact absurd hy (by simp [isRec])
      | vnull => exact absurd hy (by simp [isRec])
      | vbool b => exact absurd hy (by simp [isRec])
      | vnum n => exact absurd hy (by simp [isRec])
      | vstr s => exact absurd hy (by simp [isRec])
      | vfun i => exact absurd hy (by simp [isRec])
      | vdate t => exact absurd hy (by simp [isRec])
      | varr e p => exact absurd hy (by simp [isRec])
  | vundefined => exact absurd hc (by simp [isRec])
  | vnull => exact absurd hc (by simp [isRec])
  | vbool b => exact absurd hc (by simp [isRec])
  | vnum n => exact absurd hc (by simp [isRec])
  | vstr s => exact absurd hc (by simp [isRec])
  | vfun i => exact absurd hc (by simp [isRec])
  | vdate t => exact absurd hc (by simp [isRec])
  | varr e p => exact absurd hc (by simp [isRec])

theorem countIdEq_map_clone (p : Val) (key : String) :
    ∀ l : List Val, (∀ y ∈ l, isRec y = true) → isPrimB p = true →
      countIdEq p key (l.map clone) = countIdEq p key l
  | [], _, _ => rfl
  | y :: rest, hl, hp => by
      have hy := hl y (List.mem_cons_self y rest)
      rw [List.map_cons, countIdEq_cons, countIdEq_cons,
        countIdEq_map_clone p key rest (fun z hz => hl z (List.mem_cons_of_mem y hz)) hp]
      congr 1
      by_cases h : getProp y key = p
      · have h2 := (getProp_clone_prim y key p hy hp).2 h
        simp [h, h2]
      · have h2 : ¬ getProp (clone y) key = p :=
          fun hcc => h ((getProp_clone_prim y key p hy hp).1 hcc)
        simp [h, h2]

theorem scan_count (cand : Val) (key : String) :
    ∀ (l : List Val) (n : Nat),
    (∀ y ∈ l, isRec y = true) →
    isRec cand = true →
    isPrimB (getProp cand key) = true →
    ∃ upd es, scanUpdate cand key (densify (l.map clone) n) = .ok (upd, es) ∧
      upd = l.any (fun y => getProp y key == getProp cand key) ∧
      countIdEq (getProp cand key) key es.vals = countIdEq (getProp cand key) key l
  | [], n, _, _, _ => ⟨false, .nil, rfl, rfl, rfl⟩
  | y :: rest, n, hl, hc, hp => by
      have hy : isRec y = true := hl y (List.mem_cons_self y rest)
      have hyc : isRec (clone y) = true := by rw [isRec_clone]; exact hy
      rw [List.map_cons, densify,
        scanUpdate_cons cand key n (clone y) (densify (rest.map clone) (n + 1)) hyc]
      by_cases hmatch : getProp y key = getProp cand key
      · have hmc : getProp (clone y) key = getProp cand key :=
          (getProp_clone_prim y key _ hy hp).2 hmatch
        have hs : jsStrictEq (getProp cand key) (getProp (clone y) key) = true :=
          (jsStrictEq_true_iff _ _).2 ⟨hmc.symm, hp⟩
        rw [hs, if_pos rfl]
        refine ⟨true, _, rfl, ?_, ?_⟩
        · have hb : (getProp y key == getProp cand key) = true := by
            simp [hmatch]
          simp [List.any_cons, hb]
        · rw [Elems.vals, vals_densify, countIdEq_cons, countIdEq_cons]
          have hmg := getProp_merged cand y key hc hy hp hmc
          have hcl := countIdEq_map_clone (getProp cand key) key rest
            (fun z hz => hl z (List.mem_cons_of_mem y hz)) hp
          simp [hmg, hmatch, hcl]
      · have hmc : ¬ getProp (clone y) key = getProp cand key :=
          fun hcc => hmatch ((getProp_clone_prim y key _ hy hp).1 hcc)
        have hs : jsStrictEq (getProp cand key) (getProp (clone y) key) = false := by
          cases hcase : jsStrictEq (getProp cand key) (getProp (clone y) key)
          · rfl
          · obtain ⟨heq, -⟩ := (jsStrictEq_true_iff _ _).1 hcase
            exact absurd heq.symm hmc
        rw [hs]
        simp only [Bool.false_eq_true, if_false]
        obtain ⟨upd, es, hscan, hupd, hcount⟩ :=
          scan_count cand key rest (n + 1)
            (fun z hz => hl z (List.mem_cons_of_mem y hz)) hc hp
        refine ⟨upd, .cons n (clone y) es, ?_, ?_, ?_⟩
        · rw [hscan, ok_map]
        · have hb : (getProp y key == getProp cand key) = false := by
            simp [hmatch]
          rw [List.any_cons, hb, hupd]
          simp
        · have hb2 : (getProp (clone y) key == getProp cand key) = false := by
            simp [hmc]
          have hb : (getProp y key == getProp cand key) = false := by
            simp [hmatch]
          simp only [Elems.vals, countIdEq_cons, hb2, hb, hcount]

/-!
## Freshness of clone addresses, and mutation at absent addresses
-/

theorem mem_addrsAElems_adensify : ∀ (l : List AVal) (m a : Nat),
    a ∈ addrsAElems (adensify l m) ↔ ∃ v ∈ l, a ∈ addrsA v
  | [], m, a => by simp [adensify, addrsAElems]
  | v :: rest, m, a => by
      simp [adensify, addrsAElems, mem_addrsAElems_adensify rest (m + 1) a]

mutual
theorem cloneA_fresh : ∀ (v : AVal) (n : Nat),
    n ≤ (cloneA v n).2 ∧ ∀ a ∈ addrsA (cloneA v n).1, n ≤ a
  | .aundefined, n => ⟨le_refl n, by simp [cloneA, addrsA]⟩
  | .anull, n => ⟨le_refl n, by simp [cloneA, addrsA]⟩
  | .abool b, n => ⟨le_refl n, by simp [cloneA, addrsA]⟩
  | .anum m, n => ⟨le_refl n, by simp [cloneA, addrsA]⟩
  | .astr s, n => ⟨le_refl n, by simp [cloneA, addrsA]⟩
  | .afun i, n => ⟨le_refl n, by simp [cloneA, addrsA]⟩
  | .adate _ t, n => ⟨by simp [cloneA], by simp [cloneA, addrsA]⟩
  | .aarr _ elems props, n => by
      obtain ⟨he1, he2⟩ := cloneAElems_fresh elems (n + 1)
      obtain ⟨hp1, hp2, hp3⟩ := cloneAProps_fresh props (cloneAElems elems (n + 1)).2
      simp only [cloneA]
      constructor
      · omega
      · intro a ha
        simp only [addrsA, List.mem_cons, List.mem_append] at ha
        rcases ha with rfl | h | h
        · exact le_refl a
        · obtain ⟨v, hv, hav⟩ := (mem_addrsAElems_adensify _ 0 a).1 h
          rcases List.mem_append.1 hv with hv2 | hv2
          · have := he2 v hv2 a hav
            omega
          · have := hp2 v hv2 a hav
            omega
        · have := hp3 a h
          omega
  | .aobj _ fields, n => by
      obtain ⟨hf1, hf2⟩ := cloneAFields_fresh fields (n + 1)
      simp only [cloneA]
      constructor
      · omega
      · intro a ha
        simp only [addrsA, List.mem_cons] at ha
        rcases ha with rfl | h
        · exact le_refl a
        · have := hf2 a h
          omega

theorem cloneAElems_fresh : ∀ (e : AElems) (n : Nat),
    n ≤ (cloneAElems e n).2 ∧
      ∀ v ∈ (cloneAElems e n).1, ∀ a ∈ addrsA v, n ≤ a
  | .nil, n => ⟨le_refl n, by simp [cloneAElems]⟩
  | .cons i v rest, n => by
      obtain ⟨h1, h2⟩ := cloneA_fresh v n
      obtain ⟨h3, h4⟩ := cloneAElems_fresh rest (cloneA v n).2
      simp only [cloneAElems]
      constructor
      · omega
      · intro w hw a ha
        simp only [List.mem_cons] at hw
        rcases hw with rfl | hw
        · exact h2 a ha
        · have := h4 w hw a ha
          omega

theorem cloneAProps_fresh : ∀ (f : AFields) (n : Nat),
    n ≤ (cloneAProps f n).2 ∧
      (∀ v ∈ (cloneAProps f n).1.1, ∀ a ∈ addrsA v, n ≤ a) ∧
      (∀ a ∈ addrsAFields (cloneAProps f n).1.2, n ≤ a)
  | .nil, n => ⟨le_refl n, by simp [cloneAProps], by simp [cloneAProps, addrsAFields]⟩
  | .cons k v rest, n => by
      obtain ⟨h1, h2⟩ := cloneA_fresh v n
      obtain ⟨h3, h4, h5⟩ := cloneAProps_fresh rest (cloneA v n).2
      by_cases hk : jsNumericStr k = true
      · simp only [cloneAProps, hk, if_true]
        refine ⟨by omega, ?_, ?_⟩
        · intro w hw a ha
          simp only [List.mem_cons] at hw
          rcases hw with rfl | hw
          · exact h2 a ha
          · have := h4 w hw a ha
            omega
        · intro a ha
          have := h5 a ha
          omega
      · simp only [Bool.not_eq_true] at hk
        simp only [cloneAProps, hk, Bool.false_eq_true, if_false]
        refine ⟨by omega, ?_, ?_⟩
        · intro w hw a ha
          have := h4 w hw a ha
          omega
        · intro a ha
          simp only [addrsAFields, List.mem_append] at ha
          rcases ha with ha | ha
          · exact h2 a ha
          · have := h5 a ha
            omega

theorem cloneAFields_fresh : ∀ (f : AFields) (n : Nat),
    n ≤ (cloneAFields f n).2 ∧
      ∀ a ∈ addrsAFields (cloneAFields f n).1, n ≤ a
  | .nil, n => ⟨le_refl n, by simp [cloneAFields, addrsAFields]⟩
  | .cons k v rest, n => by
      obtain ⟨h1, h2⟩ := cloneA_fresh v n
      obtain ⟨h3, h4⟩ := cloneAFields_fresh rest (cloneA v n).2
      simp only [cloneAFields]
      constructor
      · omega
      · intro a ha
        simp only [addrsAFields, List.mem_append] at ha
        rcases ha with ha | ha
        · exact h2 a ha
        · have := h4 a ha
          omega
end

mutual
theorem setFieldAt_notMem : ∀ (tgt : Nat) (k : String) (x : AVal) (v : AVal),
    tgt ∉ addrsA v → setFieldAt tgt k x v = v
  | tgt, k, x, .aundefined, _ => rfl
  | tgt, k, x, .anull, _ => rfl
  | tgt, k, x, .abool _, _ => rfl
  | tgt, k, x, .anum _, _ => rfl
  | tgt, k, x, .astr _, _ => rfl
  | tgt, k, x, .afun _, _ => rfl
  | tgt, k, x, .adate a t, h => by
      simp only [addrsA, List.mem_singleton] at h
      rw [setFieldAt, if_neg (fun hc => h hc.symm)]
  | tgt, k, x, .aarr a elems props, h => by
      simp only [addrsA, List.mem_cons, List.mem_append] at h
      push_neg at h
      rw [setFieldAt, if_neg (fun hc => h.1 hc.symm)]
      rw [setFieldAtElems_notMem tgt k x elems h.2.1,
        setFieldAtFields_notMem tgt k x props h.2.2]
  | tgt, k, x, .aobj a fields, h => by
      simp only [addrsA, List.mem_cons] at h
      push_neg at h
      rw [setFieldAt, if_neg (fun hc => h.1 hc.symm)]
      rw [setFieldAtFields_notMem tgt k x fields h.2]

theorem setFieldAtElems_notMem : ∀ (tgt : Nat) (k : String) (x : AVal) (e : AElems),
    tgt ∉ addrsAElems e → setFieldAtElems tgt k x e = e
  | tgt, k, x, .nil, _ => rfl
  | tgt, k, x, .cons i v rest, h => by
      simp only [addrsAElems, List.mem_append] at h
      push_neg at h
      rw [setFieldAtElems, setFieldAt_notMem tgt k x v h.1,
        setFieldAtElems_notMem tgt k x rest h.2]

theorem setFieldAtFields_notMem : ∀ (tgt : Nat) (k : String) (x : AVal) (f : AFields),
    tgt ∉ addrsAFields f → setFieldAtFields tgt k x f = f
  | tgt, k, x, .nil, _ => rfl
  | tgt, k, x, .cons k2 v rest, h => by
      simp only [addrsAFields, List.mem_append] at h
      push_neg at h
      rw [setFieldAtFields, setFieldAt_notMem tgt k x v h.1,
        setFieldAtFields_notMem tgt k x rest h.2]
end

/-!
## Address propagation through the upsert pipeline
-/

theorem lookup_addrsA : ∀ (g : AFields) (k : String) (w : AVal),
    g.lookup k = some w → ∀ a ∈ addrsA w, a ∈ addrsAFields g
  | .cons k2 v rest, k, w, h, a, ha => by
      simp only [addrsAFields, List.mem_append]
      by_cases hk : k2 = k
      · rw [AFields.lookup, if_pos hk] at h
        cases h
        exact Or.inl ha
      · rw [AFields.lookup, if_neg hk] at h
        exact Or.inr (lookup_addrsA rest k w h a ha)

theorem addrsAFields_append : ∀ f g : AFields,
    addrsAFields (f.append g) = addrsAFields f ++ addrsAFields g
  | .nil, g => by simp [AFields.append, addrsAFields]
  | .cons k v rest, g => by
      simp [AFields.append, addrsAFields, addrsAFields_append rest g]

theorem overlayA_addrs : ∀ (f g : AFields) (a : Nat),
    a ∈ addrsAFields (overlayFieldsA f g) →
      a ∈ addrsAFields f ∨ a ∈ addrsAFields g
  | .cons k v rest, g, a, h => by
      simp only [overlayFieldsA, addrsAFields, List.mem_append] at h ⊢
      rcases h with h | h
      · cases hl : g.lookup k with
        | none => rw [hl] at h; exact Or.inl (Or.inl h)
        | some w => rw [hl] at h; exact Or.inr (lookup_addrsA g k w hl a h)
      · rcases overlayA_addrs rest g a h with h2 | h2
        · exact Or.inl (Or.inr h2)
        · exact Or.inr h2

theorem restA_addrs : ∀ (g f : AFields) (a : Nat),
    a ∈ addrsAFields (restFieldsA g f) → a ∈ addrsAFields g
  | .cons k v rest, f, a, h => by
      simp only [restFieldsA] at h
      simp only [addrsAFields, List.mem_append]
      by_cases hs : (f.lookup k).isSome
      · rw [if_pos hs] at h
        exact Or.inr (restA_addrs rest f a h)
      · rw [if_neg hs] at h
        simp only [addrsAFields, List.mem_append] at h
        rcases h with h | h
        · exact Or.inl h
        · exact Or.inr (restA_addrs rest f a h)

theorem spreadMergeA_addrs (f g : AFields) (a : Nat)
    (h : a ∈ addrsAFields (spreadMergeA f g)) :
    a ∈ addrsAFields f ∨ a ∈ addrsAFields g := by
  rw [spreadMergeA, addrsAFields_append] at h
  rcases List.mem_append.1 h with h | h
  · exact overlayA_addrs f g a h
  · exact Or.inr (restA_addrs g f a h)

theorem spreadElemsA_addrs : ∀ (e : AElems),
    addrsAFields (spreadFieldsA.spreadElemsA e) = addrsAElems e
  | .nil => rfl
  | .cons i v rest => by
      simp [spreadFieldsA.spreadElemsA, addrsAFields, addrsAElems,
        spreadElemsA_addrs rest]

theorem spreadCharsA_addrs : ∀ (cs : List Char) (m : Nat),
    addrsAFields (spreadFieldsA.spreadCharsA cs m) = []
  | [], _ => rfl
  | c :: rest, m => by
      simp [spreadFieldsA.spreadCharsA, addrsAFields, addrsA,
        spreadCharsA_addrs rest (m + 1)]

theorem spreadFieldsA_addrs (v : AVal) (a : Nat)
    (h : a ∈ addrsAFields (spreadFieldsA v)) : a ∈ addrsA v := by
  cases v with
  | aobj addr f => simp only [spreadFieldsA] at h; simp [addrsA, h]
  | aarr addr elems props =>
      simp only [spreadFieldsA, addrsAFields_append, spreadElemsA_addrs] at h
      simp only [addrsA, List.mem_cons, List.mem_append]
      exact Or.inr (List.mem_append.1 h)
  | astr s => rw [spreadFieldsA, spreadCharsA_addrs] at h; cases h
  | aundefined => cases h
  | anull => cases h
  | abool b => cases h
  | anum n => cases h
  | afun i => cases h
  | adate addr t => cases h

theorem pushA_go_addrs (e : AElems) (v : AVal) : ∀ e2 : AElems,
    addrsAElems (AElems.push.go e v e2) = addrsAElems e2 ++ addrsA v
  | .nil => by simp [AElems.push.go, addrsAElems]
  | .cons i w rest => by
      simp [AElems.push.go, addrsAElems, pushA_go_addrs e v rest]

theorem pushA_addrs (e : AElems) (v : AVal) :
    addrsAElems (e.push v) = addrsAElems e ++ addrsA v := by
  rw [AElems.push, pushA_go_addrs e v e]

theorem scanUpdateA_fresh (cand : AVal) (key : String) :
    ∀ (e : AElems) (n m : Nat), m ≤ n → (∀ a ∈ addrsAElems e, m ≤ a) →
    ∀ upd es n1, scanUpdateA cand key e n = .ok ((upd, es), n1) →
      n ≤ n1 ∧ ∀ a ∈ addrsAElems es, m ≤ a
  | .nil, n, m, hmn, he, upd, es, n1, h => by
      rw [scanUpdateA] at h
      cases h
      exact ⟨le_refl n, he⟩
  | .cons i obj rest, n, m, hmn, he, upd, es, n1, h => by
      have hobj : ∀ a ∈ addrsA obj, m ≤ a := fun a ha =>
        he a (by simp [addrsAElems, ha])
      have hrest : ∀ a ∈ addrsAElems rest, m ≤ a := fun a ha =>
        he a (by simp [addrsAElems, ha])
      rw [scanUpdateA] at h
      cases hE : getPropAE obj key with
      | error e2 => rw [hE] at h; cases e2; rw [error_bind] at h; cases h
      | ok pv =>
          rw [hE, ok_bind] at h
          by_cases hm2 : jsStrictEqA (getPropA cand key) pv = true
          · rw [if_pos hm2] at h
            obtain ⟨hc1, hc2⟩ := cloneA_fresh cand n
            cases h
            refine ⟨by omega, ?_⟩
            intro a ha
            simp only [addrsAElems, addrsA, List.mem_cons, List.mem_append] at ha
            rcases ha with (rfl | h2) | h2
            · omega
            · rcases spreadMergeA_addrs _ _ a h2 with h3 | h3
              · exact hobj a (spreadFieldsA_addrs obj a h3)
              · have := hc2 a (spreadFieldsA_addrs _ a h3)
                omega
            · exact hrest a h2
          · rw [if_neg hm2] at h
            cases hs : scanUpdateA cand key rest n with
            | error e2 => rw [hs] at h; cases e2; rw [error_bind] at h; cases h
            | ok r =>
                rw [hs, ok_bind] at h
                cases h
                obtain ⟨h1, h2⟩ := scanUpdateA_fresh cand key rest n m hmn hrest
                  r.1.1 r.1.2 r.2 (by rw [hs])
                refine ⟨h1, ?_⟩
                intro a ha
                simp only [addrsAElems, List.mem_append] at ha
                rcases ha with ha | ha
                · exact hobj a ha
                · exact h2 a ha

theorem updateInA_fresh (array cand : AVal) (key : String) (n : Nat)
    (upd : Bool) (arr : AVal) (n1 : Nat)
    (h : _updateInA array cand key n = .ok ((upd, arr), n1)) :
    n ≤ n1 ∧ ∀ a ∈ addrsA arr, n ≤ a := by
  have core : ∀ (base : AVal) (nb : Nat), n ≤ nb →
      (if jsTruthyA cand = true then
        match (cloneA base nb).1 with
        | .aarr a elems props =>
            (scanUpdateA cand key elems (cloneA base nb).2).map
              (fun (r : (Bool × AElems) × Nat) => ((r.1.1, AVal.aarr a r.1.2 props), r.2))
        | _ => .error ()
      else .ok ((false, (cloneA base nb).1), (cloneA base nb).2)) = .ok ((upd, arr), n1) →
      n ≤ n1 ∧ ∀ a ∈ addrsA arr, n ≤ a := by
    intro base nb hnb hb
    obtain ⟨hc1, hc2⟩ := cloneA_fresh base nb
    by_cases hC : jsTruthyA cand = true
    · rw [if_pos hC] at hb
      split at hb
      case _ a elems props heq =>
        cases hs : scanUpdateA cand key elems (cloneA base nb).2 with
        | error e => rw [hs] at hb; cases e; rw [error_map] at hb; cases hb
        | ok r =>
            rw [hs, ok_map] at hb
            have haddr : ∀ a2 ∈ addrsA (AVal.aarr a elems props), nb ≤ a2 := by
              rw [← heq]; exact hc2
            have helems : ∀ a2 ∈ addrsAElems elems, n ≤ a2 := by
              intro a2 ha2
              have := haddr a2 (by simp [addrsA, ha2])
              omega
            obtain ⟨hs1, hs2⟩ := scanUpdateA_fresh cand key elems (cloneA base nb).2 n
              (by omega) helems r.1.1 r.1.2 r.2 (by rw [hs])
            cases hb
            constructor
            · omega
            · intro a2 ha2
              simp only [addrsA, List.mem_cons, List.mem_append] at ha2
              rcases ha2 with rfl | ha2 | ha2
              · have := haddr a2 (by simp [addrsA])
                omega
              · exact hs2 a2 ha2
              · have := haddr a2 (by simp [addrsA, ha2])
                omega
      all_goals cases hb
    · rw [if_neg hC] at hb
      cases hb
      refine ⟨by omega, ?_⟩
      intro a2 ha2
      have := hc2 a2 ha2
      omega
  rw [_updateInA] at h
  by_cases hT : jsTruthyA array = true
  · simp only [hT, if_true] at h
    exact core array n (le_refl n) h
  · simp only [hT, Bool.false_eq_true, if_false] at h
    exact core (.aarr n .nil .nil) (n + 1) (by omega) h

theorem updateOrAppendA_fresh (array cand : AVal) (key : String) (n : Nat)
    (r : AVal) (n1 : Nat)
    (h : updateOrAppendA array cand key n = .ok (r, n1)) :
    ∀ a ∈ addrsA r, n ≤ a := by
  rw [updateOrAppendA] at h
  cases hU : _updateInA array cand key n with
  | error e => rw [hU] at h; cases e; rw [error_bind] at h; cases h
  | ok q =>
      obtain ⟨h1, h2⟩ := updateInA_fresh array cand key n q.1.1 q.1.2 q.2 (by
        rw [hU])
      rw [hU, ok_bind] at h
      by_cases hP : (!q.1.1 && jsTruthyA cand) = true
      · rw [if_pos hP] at h
        split at h
        case _ a elems props heq =>
          obtain ⟨hcc1, hcc2⟩ := cloneA_fresh cand q.2
          cases h
          intro a2 ha2
          have haddr : ∀ a3 ∈ addrsA (AVal.aarr a elems props), n ≤ a3 := by
            rw [← heq]; exact h2
          simp only [addrsA, pushA_addrs, List.mem_cons, List.mem_append] at ha2
          rcases ha2 with rfl | (ha2 | ha2) | ha2
          · exact haddr a2 (by simp [addrsA])
          · exact haddr a2 (by simp [addrsA, ha2])
          · have := hcc2 a2 ha2
            omega
          · exact haddr a2 (by simp [addrsA, ha2])
        case _ =>
          cases h
          exact h2
      · rw [if_neg hP] at h
        cases h
        exact h2

/-!
## Claim theorems
-/

/-- C1: navigation through a `safeWrap` wrapper is total (`getChainW` is a
function on all key chains, so access never throws and always yields another
wrapper), unwrapping a chain returns exactly the walk of the recorded path
over the cloned input, and as soon as any step of the path reads a missing
key (or walks past a scalar) the unwrap of the whole chain is the absence
value `undefined`. -/
theorem claim_C1_safe_navigation (v : Val) (p : List String) :
    unwrap (getChainW (safeWrap v) p) = resolve (clone v) p ∧
    (∀ p1 k p2, p = p1 ++ k :: p2 → getProp (resolve (clone v) p1) k = .vundefined →
      unwrap (getChainW (safeWrap v) p) = .vundefined) := by
  have hmain : unwrap (getChainW (safeWrap v) p) = resolve (clone v) p := by
    rw [safeWrap, getChainW_safeWrapPlain p (clone v) (dense_clone v), unwrap_safeWrapPlain]
  refine ⟨hmain, ?_⟩
  intro p1 k p2 hp hmiss
  rw [hmain, hp, resolve_append]
  show resolve (getProp (resolve (clone v) p1) k) p2 = .vundefined
  rw [hmiss]
  exact resolve_vundefined p2

/-- Witness for C1 at the value `{a: {b: 1}}` and path `a.x.c`: the second
step reads a missing key, so unwrapping gives `undefined`. -/
theorem claim_C1_safe_navigation_witness :
    unwrap (getChainW (safeWrap (Val.vobj (.cons "a" (.vobj (.cons "b" (.vnum 1) .nil)) .nil)))
      ["a", "x", "c"]) = .vundefined :=
  (claim_C1_safe_navigation (Val.vobj (.cons "a" (.vobj (.cons "b" (.vnum 1) .nil)) .nil))
    ["a", "x", "c"]).2 ["a"] "x" ["c"] rfl (by decide)

/-- C9 counterexample: the claim asserts `toArray` raises on every
non-mapping argument, sequences and dates included.  The guard is only
`typeof === 'object' && !== null`, which sequences and dates both pass, so
neither raises. -/
theorem claim_C9_counterexample :
    isOkB (toArray (Val.varr (.cons 0 (.vnum 1) .nil) .nil)) = true ∧
    isOkB (toArray (Val.vdate 0)) = true := by decide

/-- C9 (amended): `toArray` raises exactly when its argument is not a
non-null value of runtime type object — absence, null, booleans, numbers,
strings and functions raise, while mappings, sequences and dates are all
accepted; `toObject` raises exactly when its argument is not a sequence.
Well-shaped arguments (a mapping to `toArray`, a sequence to `toObject`)
therefore never raise. -/
theorem claim_C9_converter_guards_amended (v : Val) :
    isOkB (toArray v) = isObjectType v ∧ isOkB (toObject v) = isArrB v := by
  cases v <;> simp [toArray, toObject, isObjectType, isArrB, isOkB]

/-- C10: `unwrap` applied to a value that was never wrapped does not recover
it: for every non-null, non-absent value the private-symbol read yields
`undefined` (never the input itself, since the input is not `undefined`),
while reading the symbol off `null` or `undefined` throws a TypeError. -/
theorem claim_C10_unwrap_unwrapped :
    (∀ v : Val, v ≠ .vnull → v ≠ .vundefined →
      unwrapRaw v = .ok .vundefined ∧ unwrapRaw v ≠ .ok v) ∧
    unwrapRaw .vnull = .error () ∧ unwrapRaw .vundefined = .error () := by
  refine ⟨?_, rfl, rfl⟩
  intro v h1 h2
  have he : unwrapRaw v = .ok .vundefined := by
    cases v <;> simp_all [unwrapRaw]
  refine ⟨he, ?_⟩
  rw [he]
  intro hc
  refine h2 ?_
  injection hc with h3
  exact h3.symm

/-- Witness for C10 at the plain mapping `{}`. -/
theorem claim_C10_unwrap_unwrapped_witness :
    unwrapRaw (Val.vobj .nil) = .ok .vundefined :=
  (claim_C10_unwrap_unwrapped.1 (Val.vobj .nil) (by decide) (by decide)).1

/-- C3: in the addressed model, a clone shares no container address with its
source (given an allocator whose fresh addresses are above every address of
the source): every address reachable from the clone is absent from the
source, so mutating a container reachable from the clone leaves the source
unchanged, and mutating a container reachable from the source leaves the
clone unchanged.  Only primitives and callables, which carry no address,
can be shared. -/
theorem claim_C3_clone_no_aliasing (v : AVal) (n : Nat) (hb : boundedA v n) :
    (∀ a ∈ addrsA ((cloneA v n).1), a ∉ addrsA v) ∧
    (∀ a ∈ addrsA ((cloneA v n).1), ∀ k x, setFieldAt a k x v = v) ∧
    (∀ a ∈ addrsA v, ∀ k x, setFieldAt a k x ((cloneA v n).1) = (cloneA v n).1) := by
  obtain ⟨h1, h2⟩ := cloneA_fresh v n
  have hdisj : ∀ a ∈ addrsA ((cloneA v n).1), a ∉ addrsA v := by
    intro a ha hav
    have := h2 a ha
    have := hb a hav
    omega
  refine ⟨hdisj, ?_, ?_⟩
  · intro a ha k x
    exact setFieldAt_notMem a k x v (hdisj a ha)
  · intro a ha k x
    refine setFieldAt_notMem a k x _ ?_
    intro hac
    have := h2 a hac
    have := hb a ha
    omega

/-- Witness for C3: cloning `{d: date}` (addresses 0 and 1) with fresh
addresses from 2; mutating the clone's top container (address 2) leaves the
source unchanged. -/
theorem claim_C3_clone_no_aliasing_witness :
    setFieldAt 2 "k" .anull (.aobj 0 (.cons "d" (.adate 1 5) .nil))
      = AVal.aobj 0 (.cons "d" (.adate 1 5) .nil) :=
  (claim_C3_clone_no_aliasing (.aobj 0 (.cons "d" (.adate 1 5) .nil)) 2
    (by decide)).2.1 2 (by decide) "k" .anull

/-- C6: `updateOrAppend` in the addressed model shares no container with its
arguments: given an allocator above every address of the list and of the
candidate, every container address reachable from the returned list is
absent from both arguments, so mutating any container of the result leaves
the original list and the original candidate unchanged — the call never
mutates its arguments. -/
theorem claim_C6_upsert_no_mutation (array cand : AVal) (key : String) (n : Nat)
    (hbA : boundedA array n) (hbC : boundedA cand n) :
    ∀ a ∈ addrsA (resA (updateOrAppendA array cand key n)),
      (a ∉ addrsA array ∧ a ∉ addrsA cand) ∧
      ∀ k x, setFieldAt a k x array = array ∧ setFieldAt a k x cand = cand := by
  intro a ha
  cases hu : updateOrAppendA array cand key n with
  | error e =>
      rw [hu] at ha
      simp [resA, addrsA] at ha
  | ok p =>
      rw [hu] at ha
      have hf := updateOrAppendA_fresh array cand key n p.1 p.2 (by rw [hu])
      have hna : n ≤ a := hf a (by simpa [resA] using ha)
      have h1 : a ∉ addrsA array := by
        intro hmem
        have := hbA a hmem
        omega
      have h2 : a ∉ addrsA cand := by
        intro hmem
        have := hbC a hmem
        omega
      exact ⟨⟨h1, h2⟩,
        fun k x => ⟨setFieldAt_notMem a k x array h1, setFieldAt_notMem a k x cand h2⟩⟩

/-- Witness for C6: upserting `{id:1, v:date}` (addresses 2, 3) into
`[{id:1}]` (addresses 0, 1) with fresh addresses from 4; the result's top
container (address 4) can be mutated without touching either argument. -/
theorem claim_C6_upsert_no_mutation_witness :
    setFieldAt 4 "z" .anull
        (.aarr 0 (.cons 0 (.aobj 1 (.cons "id" (.anum 1) .nil)) .nil) .nil)
      = AVal.aarr 0 (.cons 0 (.aobj 1 (.cons "id" (.anum 1) .nil)) .nil) .nil ∧
    setFieldAt 4 "z" .anull
        (.aobj 2 (.cons "id" (.anum 1) (.cons "v" (.adate 3 7) .nil)))
      = AVal.aobj 2 (.cons "id" (.anum 1) (.cons "v" (.adate 3 7) .nil)) :=
  (claim_C6_upsert_no_mutation
    (.aarr 0 (.cons 0 (.aobj 1 (.cons "id" (.anum 1) .nil)) .nil) .nil)
    (.aobj 2 (.cons "id" (.anum 1) (.cons "v" (.adate 3 7) .nil)))
    "id" 4 (by decide) (by decide) 4 (by decide)).2 "z" .anull

/-- C7 counterexample: with the container-valued identity key `id: []`, the
input list already holds one record whose key value is structurally equal to
the candidate's, so the claim says the result must hold exactly one such
record; but `===` never matches a cloned container, the candidate is
appended, and the result holds two. -/
theorem claim_C7_counterexample :
    countIdEq (getProp (Val.vobj (.cons "id" (.varr .nil .nil) .nil)) "id") "id"
        [Val.vobj (.cons "id" (.varr .nil .nil) .nil)] = 1 ∧
    countIdEqRes (getProp (Val.vobj (.cons "id" (.varr .nil .nil) .nil)) "id") "id"
        (updateOrAppend (mkArr [Val.vobj (.cons "id" (.varr .nil .nil) .nil)])
          (Val.vobj (.cons "id" (.varr .nil .nil) .nil)) "id") = 2 := by
  decide

/-- C7 (amended): when the candidate's identity-key value is a primitive (so
that the code's `===` match is exactly value equality), `updateOrAppend`
never introduces a new duplicate group for that key: for any list of
records, the number of records in the result whose key value equals the
candidate's is 1 when the input held none, and exactly the input's count
otherwise — primitive key fields survive the cloning even when other
attributes are reshaped by it.  For container-valued key values the
invariant fails (see the counterexample). -/
theorem claim_C7_duplicate_invariant_amended (l : List Val) (cand : Val) (key : String)
    (hl : ∀ y ∈ l, isRec y = true)
    (hc : isRec cand = true)
    (hp : isPrimB (getProp cand key) = true) :
    isOkB (updateOrAppend (mkArr l) cand key) = true ∧
    countIdEqRes (getProp cand key) key (updateOrAppend (mkArr l) cand key)
      = if countIdEq (getProp cand key) key l = 0 then 1
        else countIdEq (getProp cand key) key l := by
  have hclone : clone (mkArr l) = .varr (densify (l.map clone) 0) .nil := by
    simp [mkArr, clone, cloneElems_densify, cloneProps, cloneFields]
  obtain ⟨upd, es, hscan, hupd, hcount⟩ := scan_count cand key l 0 hl hc hp
  have hU : _updateIn (mkArr l) cand key = .ok (upd, .varr es .nil) := by
    rw [updateIn_arr (mkArr l) cand key _ _ rfl hclone (jsTruthy_rec cand hc), hscan, ok_map]
  by_cases hu : upd = true
  · rw [hu] at hU hupd
    rw [updateOrAppend_of_updated _ cand key _ hU]
    have hne : countIdEq (getProp cand key) key l ≠ 0 := by
      obtain ⟨y, hy, hyeq⟩ := List.any_eq_true.1 hupd.symm
      have hmem : y ∈ l.filter (fun z => getProp z key == getProp cand key) :=
        List.mem_filter.2 ⟨hy, hyeq⟩
      have hpos : 0 < (l.filter (fun z => getProp z key == getProp cand key)).length :=
        List.length_pos.2 (List.ne_nil_of_mem hmem)
      rw [countIdEq]
      omega
    rw [if_neg hne]
    exact ⟨rfl, hcount⟩
  · have hu2 : upd = false := by
      cases upd
      · rfl
      · exact absurd rfl hu
    rw [hu2] at hU hupd
    rw [updateOrAppend_of_not_updated _ cand key es .nil (jsTruthy_rec cand hc) hU]
    have hl0 : countIdEq (getProp cand key) key l = 0 := by
      apply countIdEq_eq_zero
      intro y hy
      have h3 := List.any_eq_false.1 hupd.symm y hy
      simpa using h3
    rw [if_pos hl0]
    refine ⟨rfl, ?_⟩
    show countIdEq (getProp cand key) key (es.push (clone cand)).vals = 1
    rw [Elems.vals_push, countIdEq_append, hcount, hl0]
    have hgc : getProp (clone cand) key = getProp cand key :=
      getProp_clone_self cand key hc hp
    simp [countIdEq, List.filter_cons, hgc]

/-- Witness for C7 (amended): upserting `{id:1}` into `[{id:0}]` (no match,
count 0) yields a list with exactly one record keyed 1. -/
theorem claim_C7_duplicate_invariant_amended_witness :
    isOkB (updateOrAppend (mkArr [Val.vobj (.cons "id" (.vnum 0) .nil)])
        (Val.vobj (.cons "id" (.vnum 1) .nil)) "id") = true ∧
    countIdEqRes (getProp (Val.vobj (.cons "id" (.vnum 1) .nil)) "id") "id"
        (updateOrAppend (mkArr [Val.vobj (.cons "id" (.vnum 0) .nil)])
          (Val.vobj (.cons "id" (.vnum 1) .nil)) "id")
      = if countIdEq (getProp (Val.vobj (.cons "id" (.vnum 1) .nil)) "id") "id"
            [Val.vobj (.cons "id" (.vnum 0) .nil)] = 0 then 1
        else countIdEq (getProp (Val.vobj (.cons "id" (.vnum 1) .nil)) "id") "id"
            [Val.vobj (.cons "id" (.vnum 0) .nil)] :=
  claim_C7_duplicate_invariant_amended
    [Val.vobj (.cons "id" (.vnum 0) .nil)]
    (Val.vobj (.cons "id" (.vnum 1) .nil)) "id"
    (by decide) (by decide) (by decide)

/-- C8: `updateOrAppend` treats absent arguments as defined cases and never
raises on them, nor on well-shaped ones: an absent list with a truthy
candidate yields the one-element list holding a clone of the candidate; an
absent candidate returns the clone of the (defaulted) list unchanged with
nothing appended; and for a record list with a record candidate the call
returns without throwing. -/
theorem claim_C8_absent_arguments (key : String) :
    (∀ cand : Val, jsTruthy cand = true →
      updateOrAppend .vundefined cand key = .ok (.varr (.cons 0 (clone cand) .nil) .nil)) ∧
    (∀ list : Val, updateOrAppend list .vundefined key
      = .ok (clone (if jsTruthy list then list else .varr .nil .nil))) ∧
    (∀ (l : List Val) (cand : Val), (∀ y ∈ l, isRec y = true) → isRec cand = true →
      isOkB (updateOrAppend (mkArr l) cand key) = true) := by
  refine ⟨?_, ?_, ?_⟩
  · intro cand hc
    have hU : _updateIn .vundefined cand key = .ok (false, .varr .nil .nil) := by
      rw [_updateIn]
      simp [jsTruthy, hc, clone, cloneElems, cloneProps, cloneFields, densify,
        scanUpdate_nil, ok_map]
    rw [updateOrAppend, hU, ok_bind]
    simp [hc, Elems.push, Elems.jsLen, Elems.append]
  · intro list
    have hU : _updateIn list .vundefined key
        = .ok (false, clone (if jsTruthy list then list else .varr .nil .nil)) := by
      rw [_updateIn]
      simp [jsTruthy]
    rw [updateOrAppend, hU, ok_bind]
    simp [jsTruthy]
  · intro l cand hl hc
    exact updateOrAppend_isOk cand key l hl hc

/-- Witness for C8: upserting `{a: 1}` into an absent list yields the
one-element list holding its clone. -/
theorem claim_C8_absent_arguments_witness :
    updateOrAppend .vundefined (Val.vobj (.cons "a" (.vnum 1) .nil)) "id"
      = .ok (.varr (.cons 0 (clone (Val.vobj (.cons "a" (.vnum 1) .nil))) .nil) .nil) :=
  (claim_C8_absent_arguments "id").1 (Val.vobj (.cons "a" (.vnum 1) .nil)) (by decide)
